import Mathlib

/-!
Verification development for the softengine software rasterizer
(src/main.cpp).  The C++ code is shallowly embedded: `float` values are
modelled as real numbers (exact arithmetic), machine-integer pixel
coordinates as natural numbers, the depth buffer and the SDL back buffer
as total functions.  Every definition below is translated directly from
the corresponding C++ function; doc comments name the source symbol.
-/

set_option maxHeartbeats 1000000

noncomputable section

/-- Model of glm::vec3 with float components modelled as reals. -/
structure V3 where
  x : ℝ
  y : ℝ
  z : ℝ

/-- Componentwise vector addition (glm operator+). -/
def V3.add (a b : V3) : V3 := ⟨a.x + b.x, a.y + b.y, a.z + b.z⟩

/-- Componentwise vector subtraction (glm operator-). -/
def V3.sub (a b : V3) : V3 := ⟨a.x - b.x, a.y - b.y, a.z - b.z⟩

/-- Componentwise negation (glm unary operator-). -/
def V3.neg (a : V3) : V3 := ⟨-a.x, -a.y, -a.z⟩

/-- Vector scaled by a scalar (glm operator*). -/
def V3.scale (a : V3) (s : ℝ) : V3 := ⟨a.x * s, a.y * s, a.z * s⟩

/-- Vector divided componentwise by a scalar (glm operator/). -/
def V3.divs (a : V3) (s : ℝ) : V3 := ⟨a.x / s, a.y / s, a.z / s⟩

/-- Dot product (glm::dot). -/
def V3.dot (a b : V3) : ℝ := a.x * b.x + a.y * b.y + a.z * b.z

/-- Cross product (glm::cross). -/
def V3.cross (a b : V3) : V3 :=
  ⟨a.y * b.z - b.y * a.z, a.z * b.x - b.z * a.x, a.x * b.y - b.x * a.y⟩

/-- Model of glm::normalize: the vector times inversesqrt(dot(v,v)),
where glm::inversesqrt(x) is 1/sqrt(x).  (In Lean, division by a zero
square root yields 0 rather than a float NaN.) -/
def V3.normalize (v : V3) : V3 := v.scale (1 / Real.sqrt (v.dot v))

/-- Model of glm::vec4. -/
structure V4 where
  x : ℝ
  y : ℝ
  z : ℝ
  w : ℝ

/-- Componentwise vec4 addition. -/
def V4.add (a b : V4) : V4 := ⟨a.x + b.x, a.y + b.y, a.z + b.z, a.w + b.w⟩

/-- vec4 scaled by a scalar. -/
def V4.scale (a : V4) (s : ℝ) : V4 := ⟨a.x * s, a.y * s, a.z * s, a.w * s⟩

/-- Model of glm::mat4x4, stored as its four columns (glm is
column-major, `m[i]` is column `i`). -/
structure M4 where
  c0 : V4
  c1 : V4
  c2 : V4
  c3 : V4

/-- Matrix-vector product: the linear combination of the columns. -/
def M4.mulVec (m : M4) (v : V4) : V4 :=
  ((m.c0.scale v.x).add (m.c1.scale v.y)).add ((m.c2.scale v.z).add (m.c3.scale v.w))

/-- Matrix-matrix product (glm operator*): each result column is the
left matrix applied to the corresponding right column. -/
def M4.mul (a b : M4) : M4 := ⟨a.mulVec b.c0, a.mulVec b.c1, a.mulVec b.c2, a.mulVec b.c3⟩

/-- glm::mat4(1.0f), the identity matrix. -/
def mat4identity : M4 := ⟨⟨1,0,0,0⟩, ⟨0,1,0,0⟩, ⟨0,0,1,0⟩, ⟨0,0,0,1⟩⟩

/-- glm::translate(m, v): copies m and sets the last column to
m[0]*v.x + m[1]*v.y + m[2]*v.z + m[3]. -/
def translateMat (m : M4) (v : V3) : M4 :=
  ⟨m.c0, m.c1, m.c2, ((m.c0.scale v.x).add (m.c1.scale v.y)).add ((m.c2.scale v.z).add m.c3)⟩

/-- glm::rotate(m, angle, axis): builds the 3x3 axis-angle rotation with
the normalized axis and multiplies it on the right of m, exactly as the
glm source does. -/
def rotateMat (m : M4) (angle : ℝ) (axis : V3) : M4 :=
  let c := Real.cos angle
  let s := Real.sin angle
  let a := axis.normalize
  let t := a.scale (1 - c)
  let r00 := c + t.x * a.x
  let r01 := t.x * a.y + s * a.z
  let r02 := t.x * a.z - s * a.y
  let r10 := t.y * a.x - s * a.z
  let r11 := c + t.y * a.y
  let r12 := t.y * a.z + s * a.x
  let r20 := t.z * a.x + s * a.y
  let r21 := t.z * a.y - s * a.x
  let r22 := c + t.z * a.z
  ⟨((m.c0.scale r00).add (m.c1.scale r01)).add (m.c2.scale r02),
   ((m.c0.scale r10).add (m.c1.scale r11)).add (m.c2.scale r12),
   ((m.c0.scale r20).add (m.c1.scale r21)).add (m.c2.scale r22),
   m.c3⟩

/-- glm::lookAtLH(eye, center, up). -/
def lookAtLH (eye center up : V3) : M4 :=
  let f := (center.sub eye).normalize
  let s := (up.cross f).normalize
  let u := f.cross s
  ⟨⟨s.x, u.x, f.x, 0⟩,
   ⟨s.y, u.y, f.y, 0⟩,
   ⟨s.z, u.z, f.z, 0⟩,
   ⟨-(s.dot eye), -(u.dot eye), -(f.dot eye), 1⟩⟩

/-- glm::perspectiveFovLH(fov, width, height, zNear, zFar) with glm's
default -1..1 clip depth. -/
def perspectiveFovLH (fov width height zNear zFar : ℝ) : M4 :=
  let h := Real.cos (0.5 * fov) / Real.sin (0.5 * fov)
  let w := h * height / width
  ⟨⟨w, 0, 0, 0⟩,
   ⟨0, h, 0, 0⟩,
   ⟨0, 0, (zFar + zNear) / (zFar - zNear), 1⟩,
   ⟨0, 0, -(2 * zFar * zNear) / (zFar - zNear), 0⟩⟩

/-- glm::project(obj, model, proj, viewport): transform, perspective
divide, then map from normalized device coordinates to the viewport. -/
def glmProject (obj : V3) (model proj : M4) (viewport : ℝ × ℝ × ℝ × ℝ) : V3 :=
  let t1 := model.mulVec ⟨obj.x, obj.y, obj.z, 1⟩
  let t2 := proj.mulVec t1
  let t3 : V4 := ⟨t2.x / t2.w, t2.y / t2.w, t2.z / t2.w, t2.w / t2.w⟩
  let t4 : V4 := ⟨t3.x * 0.5 + 0.5, t3.y * 0.5 + 0.5, t3.z * 0.5 + 0.5, t3.w * 0.5 + 0.5⟩
  ⟨t4.x * viewport.2.2.1 + viewport.1, t4.y * viewport.2.2.2 + viewport.2.1, t4.z⟩

/-- Model of color4 (RGBA8888).  Channels are uint8_t values modelled as
naturals. -/
structure color4 where
  r : ℕ
  g : ℕ
  b : ℕ
  a : ℕ
deriving DecidableEq

/-- Model of struct Camera. -/
structure Camera where
  position : V3
  target : V3

/-- Model of struct Face (three uint16_t vertex indices). -/
structure Face where
  a : ℕ
  b : ℕ
  c : ℕ

/-- Model of struct Vertex. -/
structure Vertex where
  coordinates : V3
  worldCoordinates : V3
  normal : V3

/-- Model of struct Mesh (textureCoord is carried along but unused by
the pipeline, as in the source). -/
structure Mesh where
  position : V3
  rotation : V3
  vertices : List Vertex
  faces : List Face
  textureCoord : ℝ × ℝ

/-- Model of struct ScanLineData. -/
structure ScanLineData where
  currentY : ℕ
  nDotLa : ℝ
  nDotLb : ℝ
  nDotLc : ℝ
  nDotLd : ℝ

/-- Model of the local std::clamp shim in the source. -/
def clampF (v lo hi : ℝ) : ℝ := if v < lo then lo else if hi < v then hi else v

/-- Model of the local std::lerp shim in the source: note that it clamps
t to the unit interval before interpolating. -/
def lerp (a b t : ℝ) : ℝ := a + clampF t 0 1 * (b - a)

/-- Model of static_cast to uint16_t on a float: truncation toward zero.
On the defined-behavior range (-1, 65536) of the conversion this equals
the (clamped-at-zero) floor, which is what this definition computes. -/
def castU16 (q : ℝ) : ℕ := (Int.floor q).toNat

/-- Model of the narrowing conversion of a float to uint8_t used when
scanline colors are scaled by the intensity: truncation toward zero. -/
def castU8 (q : ℝ) : ℕ := (Int.floor q).toNat

/-- Model of std::numeric_limits of float max(), the value the source
resets the depth buffer to (its representation of "infinitely far"):
the largest finite binary32 value, (2 - 2^-23) * 2^127. -/
def FLT_MAX : ℝ := 2 ^ 128 - 2 ^ 104

/-- Mutable Device state: the z-buffer (m_depthBuffer, indexed by
x + y*width) and the SDL back buffer (one color per (x,y) pixel).
The window width/height are passed to each operation, as they are fixed
at Device construction. -/
structure DState where
  depthBuffer : ℕ → ℝ
  surface : ℕ × ℕ → color4

/-- Model of Device::putPixel: depth test at idx = x + y*width; discard
when the stored depth is strictly less than z, otherwise store z and
write the color to the back buffer. -/
def putPixel (w : ℕ) (x y : ℕ) (z : ℝ) (c : color4) (st : DState) : DState :=
  let idx := x + y * w
  if st.depthBuffer idx < z then st
  else
    { depthBuffer := Function.update st.depthBuffer idx z,
      surface := Function.update st.surface (x, y) c }

/-- Model of Device::drawPoint: clip to the window, then putPixel with
the coordinates cast to uint16_t. -/
def drawPoint (w h : ℕ) (p : V3) (c : color4) (st : DState) : DState :=
  if 0 ≤ p.x ∧ 0 ≤ p.y ∧ p.x < (w : ℝ) ∧ p.y < (h : ℝ) then
    putPixel w (castU16 p.x) (castU16 p.y) p.z c st
  else st

/-- Model of Device::clear: fill the back buffer with the given color
and reset every depth-buffer entry to FLT_MAX. -/
def clear (c : color4) (_st : DState) : DState :=
  { depthBuffer := fun _ => FLT_MAX, surface := fun _ => c }

/-- Model of Device::computeNDotL. -/
def computeNDotL (vertex normal lightPosition : V3) : ℝ :=
  let lightDirection := lightPosition.sub vertex
  let n := normal.normalize
  let ld := lightDirection.normalize
  max 0 (n.dot ld)

/-- The gradient computation at the top of Device::processScanline:
forced to 1 when the edge endpoints share a Y coordinate. -/
def scanGradient (y : ℕ) (pa pb : V3) : ℝ :=
  if pa.y ≠ pb.y then ((y : ℝ) - pa.y) / (pb.y - pa.y) else 1

/-- The sx/ex computation of Device::processScanline: the edge's X
interpolated at the current scanline and cast to uint16_t. -/
def scanX (y : ℕ) (pa pb : V3) : ℕ := castU16 (lerp pa.x pb.x (scanGradient y pa pb))

/-- The sequence of drawPoint calls issued by the x-loop of
Device::processScanline: for each integer x in [sx, ex), the
depth-interpolated point and the intensity-scaled color. -/
def scanPixels (data : ScanLineData) (va vb vc vd : Vertex) (c : color4) :
    List (V3 × color4) :=
  let pa := va.coordinates
  let pb := vb.coordinates
  let pc := vc.coordinates
  let pd := vd.coordinates
  let sx := scanX data.currentY pa pb
  let ex := scanX data.currentY pc pd
  let z1 := lerp pa.z pb.z (scanGradient data.currentY pa pb)
  let z2 := lerp pc.z pd.z (scanGradient data.currentY pc pd)
  (List.range (ex - sx)).map (fun i =>
    let x := sx + i
    let gradient := ((x - sx : ℕ) : ℝ) / ((ex - sx : ℕ) : ℝ)
    let z := lerp z1 z2 gradient
    let nDotL := data.nDotLa
    (⟨(x : ℝ), (data.currentY : ℝ), z⟩,
     ⟨castU8 ((c.r : ℝ) * nDotL), castU8 ((c.g : ℝ) * nDotL),
      castU8 ((c.b : ℝ) * nDotL), castU8 ((c.a : ℝ) * nDotL)⟩))

/-- Model of Device::processScanline: issue the x-loop's drawPoint calls
in order. -/
def processScanline (w h : ℕ) (data : ScanLineData) (va vb vc vd : Vertex)
    (c : color4) (st : DState) : DState :=
  (scanPixels data va vb vc vd c).foldl (fun s pr => drawPoint w h pr.1 pr.2 s) st

/-- The three sequential compare-and-swap steps at the head of
Device::drawTriangle (swap v1,v2 if v1.y > v2.y; swap v2,v3 if
v2.y > v3.y; swap v1,v2 again). -/
def sortTri (v1 v2 v3 : Vertex) : Vertex × Vertex × Vertex :=
  let a1 := if v1.coordinates.y > v2.coordinates.y then v2 else v1
  let b1 := if v1.coordinates.y > v2.coordinates.y then v1 else v2
  let b2 := if b1.coordinates.y > v3.coordinates.y then v3 else b1
  let c2 := if b1.coordinates.y > v3.coordinates.y then b1 else v3
  let a3 := if a1.coordinates.y > b2.coordinates.y then b2 else a1
  let b3 := if a1.coordinates.y > b2.coordinates.y then a1 else b2
  (a3, b3, c2)

/-- The guarded inverse-slope computation of Device::drawTriangle
(dP1P2 and dP1P3): falls back to 0 unless the Y delta is strictly
positive. -/
def invSlope (p q : V3) : ℝ :=
  if q.y - p.y > 0 then (q.x - p.x) / (q.y - p.y) else 0

/-- The face normal of Device::drawTriangle: average of the three vertex
normals. -/
def vnFace (v1 v2 v3 : Vertex) : V3 := ((v1.normal.add v2.normal).add v3.normal).divs 3

/-- The face center of Device::drawTriangle: average of the three world
coordinates. -/
def centerPoint (v1 v2 v3 : Vertex) : V3 :=
  ((v1.worldCoordinates.add v2.worldCoordinates).add v3.worldCoordinates).divs 3

/-- The fixed light position of Device::drawTriangle. -/
def lightPos : V3 := ⟨0, 10, 10⟩

/-- The sequence of processScanline calls issued by the y-loop of
Device::drawTriangle, for already-sorted vertices: one call per integer
scanline from cast(p1.y) to cast(p3.y) inclusive, with the edge pairs
chosen by the slope orientation test and the y < p2.y sub-triangle
test. -/
def triScanCalls (ndotl : ℝ) (v1 v2 v3 : Vertex) :
    List (ScanLineData × Vertex × Vertex × Vertex × Vertex) :=
  let p1 := v1.coordinates
  let p2 := v2.coordinates
  let p3 := v3.coordinates
  let dP1P2 := invSlope p1 p2
  let dP1P3 := invSlope p1 p3
  if dP1P2 > dP1P3 then
    (List.range (castU16 p3.y + 1 - castU16 p1.y)).map (fun i =>
      let y := castU16 p1.y + i
      if (y : ℝ) < p2.y then (⟨y, ndotl, 0, 0, 0⟩, v1, v3, v1, v2)
      else (⟨y, ndotl, 0, 0, 0⟩, v1, v3, v2, v3))
  else
    (List.range (castU16 p3.y + 1 - castU16 p1.y)).map (fun i =>
      let y := castU16 p1.y + i
      if (y : ℝ) < p2.y then (⟨y, ndotl, 0, 0, 0⟩, v1, v2, v1, v3)
      else (⟨y, ndotl, 0, 0, 0⟩, v2, v3, v1, v3))

/-- Model of Device::drawTriangle: sort the vertices by Y, compute the
flat intensity from the averaged normal and the centroid, then run the
scanline loop. -/
def drawTriangle (w h : ℕ) (v1 v2 v3 : Vertex) (c : color4) (st : DState) : DState :=
  let s := sortTri v1 v2 v3
  let ndotl := computeNDotL (centerPoint s.1 s.2.1 s.2.2) (vnFace s.1 s.2.1 s.2.2) lightPos
  (triScanCalls ndotl s.1 s.2.1 s.2.2).foldl
    (fun s2 call =>
      processScanline w h call.1 call.2.1 call.2.2.1 call.2.2.2.1 call.2.2.2.2 c s2)
    st

/-- The scanlines visited by Device::drawTriangle on sorted input: the
currentY of each scanline call. -/
def scanlinesVisited (ndotl : ℝ) (v1 v2 v3 : Vertex) : List ℕ :=
  (triScanCalls ndotl v1 v2 v3).map (fun call => call.1.currentY)

/-- Default vertex used to model the unchecked std::vector indexing of
Device::render (out-of-range face indices are undefined behavior in the
source). -/
def vertexDefault : Vertex := ⟨⟨0,0,0⟩, ⟨0,0,0⟩, ⟨0,0,0⟩⟩

/-- Model of Device::project. -/
def project (wd ht : ℕ) (vertex : Vertex) (mvMat projMat : M4) : Vertex :=
  let viewport : ℝ × ℝ × ℝ × ℝ := (0, 0, (wd : ℝ), (ht : ℝ))
  let point2d := glmProject vertex.coordinates mvMat projMat viewport
  let point3dWorld := mvMat.mulVec ⟨vertex.coordinates.x, vertex.coordinates.y, vertex.coordinates.z, 1⟩
  let normal3dWorld := mvMat.mulVec ⟨vertex.normal.x, vertex.normal.y, vertex.normal.z, 1⟩
  ⟨point2d,
   ⟨point3dWorld.x, point3dWorld.y, point3dWorld.z⟩,
   ⟨normal3dWorld.x, normal3dWorld.y, normal3dWorld.z⟩⟩

/-- The per-mesh body of Device::render: build the model-view matrix and
draw every face with the alternating debug color. -/
def renderMesh (wd ht : ℕ) (viewMat projMat : M4) (st : DState) (mesh : Mesh) : DState :=
  let transMat := translateMat mat4identity mesh.position
  let rotXMat := rotateMat transMat mesh.rotation.x ⟨1, 0, 0⟩
  let rotYMat := rotateMat rotXMat mesh.rotation.y ⟨0, 1, 0⟩
  let rotZMat := rotateMat rotYMat mesh.rotation.z ⟨0, 0, 1⟩
  let modelMat := rotZMat
  let mvMat := viewMat.mul modelMat
  mesh.faces.enum.foldl
    (fun s2 fi =>
      let faceIdx := fi.1
      let face := fi.2
      let vertexA := mesh.vertices.getD face.a vertexDefault
      let vertexB := mesh.vertices.getD face.b vertexDefault
      let vertexC := mesh.vertices.getD face.c vertexDefault
      let pixelA := project wd ht vertexA mvMat projMat
      let pixelB := project wd ht vertexB mvMat projMat
      let pixelC := project wd ht vertexC mvMat projMat
      let alt := faceIdx % 2 = 0
      drawTriangle wd ht pixelA pixelB pixelC
        ⟨if alt then 255 else 0, 0, if alt then 0 else 255, 255⟩ s2)
    st

/-- Model of Device::render: compute the view and projection matrices,
then process each mesh in order. -/
def render (wd ht : ℕ) (camera : Camera) (meshes : List Mesh) (st : DState) : DState :=
  let viewMat := lookAtLH camera.position camera.target ⟨0, 1, 0⟩
  let projMat := perspectiveFovLH 0.78 (wd : ℝ) (ht : ℝ) 0.01 1
  meshes.foldl (renderMesh wd ht viewMat projMat) st

/-- One candidate pixel submitted to the depth-tested sink during a
frame: the uint16 coordinates, depth and color that putPixel receives. -/
structure Cand where
  x : ℕ
  y : ℕ
  z : ℝ
  c : color4

/-- Submission of a frame's candidate pixels to Device::putPixel, in
draw order. -/
def runFrame (w : ℕ) (cands : List Cand) (st : DState) : DState :=
  cands.foldl (fun s k => putPixel w k.x k.y k.z k.c s) st

/-- Denominators of the guarded inverse-slope divisions of
Device::drawTriangle that are actually evaluated. -/
def invSlopeDenoms (p q : V3) : List ℝ :=
  if q.y - p.y > 0 then [q.y - p.y] else []

/-- Denominators evaluated during one Device::processScanline call: the
two guarded gradient divisions and, for every executed x-loop
iteration, the (ex - sx) division. -/
def scanDenoms (data : ScanLineData) (va vb vc vd : Vertex) : List ℝ :=
  let pa := va.coordinates
  let pb := vb.coordinates
  let pc := vc.coordinates
  let pd := vd.coordinates
  let sx := scanX data.currentY pa pb
  let ex := scanX data.currentY pc pd
  (if pa.y ≠ pb.y then [pb.y - pa.y] else []) ++
  (if pc.y ≠ pd.y then [pd.y - pc.y] else []) ++
  (List.range (ex - sx)).map (fun _ => ((ex - sx : ℕ) : ℝ))

/-- Denominators of the divisions evaluated inside Device::computeNDotL:
the glm::normalize of the normal and of the light direction each divide
by the square root of the squared norm (glm::inversesqrt). -/
def computeNDotLDenoms (vertex normal lightPosition : V3) : List ℝ :=
  [Real.sqrt (normal.dot normal),
   Real.sqrt ((lightPosition.sub vertex).dot ((lightPosition.sub vertex)))]

/-- Denominators of the slope, averaging and gradient divisions
evaluated during one Device::drawTriangle call (the two divisions by
3.0f, the guarded inverse slopes, and every scanline's divisions). -/
def triDenoms (v1 v2 v3 : Vertex) : List ℝ :=
  let s := sortTri v1 v2 v3
  let p1 := s.1.coordinates
  let p2 := s.2.1.coordinates
  let p3 := s.2.2.coordinates
  let ndotl := computeNDotL (centerPoint s.1 s.2.1 s.2.2) (vnFace s.1 s.2.1 s.2.2) lightPos
  [3, 3] ++ invSlopeDenoms p1 p2 ++ invSlopeDenoms p1 p3 ++
  ((triScanCalls ndotl s.1 s.2.1 s.2.2).map
    (fun call => scanDenoms call.1 call.2.1 call.2.2.1 call.2.2.2.1 call.2.2.2.2)).flatten

/-- All denominators evaluated during one Device::drawTriangle call,
including the two hidden in computeNDotL's normalize calls. -/
def triAllDenoms (v1 v2 v3 : Vertex) : List ℝ :=
  let s := sortTri v1 v2 v3
  computeNDotLDenoms (centerPoint s.1 s.2.1 s.2.2) (vnFace s.1 s.2.1 s.2.2) lightPos ++
  triDenoms v1 v2 v3

/-- A throwaway concrete state used by the concrete witness theorems. -/
def dstate0 : DState := ⟨fun _ => 0, fun _ => ⟨0, 0, 0, 0⟩⟩

/-- A concrete degenerate vertex (all four scanline-edge endpoints
equal) used by the witness for the zero-width scanline claim. -/
def vtx5 : Vertex := ⟨⟨5, 0, 0⟩, ⟨0, 0, 0⟩, ⟨0, 0, 0⟩⟩

/-- Concrete sorted vertices with a negative top Y, used to refute the
floor-based scanline-range claim. -/
def cV1 : Vertex := ⟨⟨0, -(1/2), 0⟩, ⟨0, 0, 0⟩, ⟨0, 0, 0⟩⟩

/-- Second vertex of the negative-Y counterexample triangle. -/
def cV2 : Vertex := ⟨⟨1, 1/2, 0⟩, ⟨0, 0, 0⟩, ⟨0, 0, 0⟩⟩

/-- Third vertex of the negative-Y counterexample triangle. -/
def cV3 : Vertex := ⟨⟨2, 1/2, 0⟩, ⟨0, 0, 0⟩, ⟨0, 0, 0⟩⟩

/-- Concrete vertex with normal (1,0,0) for the degenerate-normal
counterexample triangle. -/
def nV1 : Vertex := ⟨⟨0, 0, 0⟩, ⟨0, 0, 0⟩, ⟨1, 0, 0⟩⟩

/-- Concrete vertex with normal (-1,0,0) for the degenerate-normal
counterexample triangle. -/
def nV2 : Vertex := ⟨⟨1, 0, 0⟩, ⟨0, 0, 0⟩, ⟨-1, 0, 0⟩⟩

/-- Concrete vertex with the zero normal for the degenerate-normal
counterexample triangle. -/
def nV3 : Vertex := ⟨⟨0, 1, 0⟩, ⟨0, 0, 0⟩, ⟨0, 0, 0⟩⟩

/-- putPixel with a passing depth test stores the depth and the color. -/
theorem putPixel_accept (w x y : ℕ) (z : ℝ) (c : color4) (st : DState)
    (h : ¬ st.depthBuffer (x + y * w) < z) :
    putPixel w x y z c st =
      { depthBuffer := Function.update st.depthBuffer (x + y * w) z,
        surface := Function.update st.surface (x, y) c } := by
  simp only [putPixel, if_neg h]

/-- putPixel with a failing depth test leaves the state unchanged. -/
theorem putPixel_reject (w x y : ℕ) (z : ℝ) (c : color4) (st : DState)
    (h : st.depthBuffer (x + y * w) < z) :
    putPixel w x y z c st = st := by
  simp only [putPixel, if_pos h]

/-- The depth buffer after putPixel: the entry at the written index
becomes the minimum of the old entry and z (accept and reject both
realize this), every other entry is untouched. -/
theorem putPixel_depthBuffer (w x y : ℕ) (z : ℝ) (c : color4) (st : DState) (idx : ℕ) :
    (putPixel w x y z c st).depthBuffer idx =
      if x + y * w = idx then min (st.depthBuffer idx) z else st.depthBuffer idx := by
  by_cases h1 : st.depthBuffer (x + y * w) < z
  · rw [putPixel_reject w x y z c st h1]
    by_cases h2 : x + y * w = idx
    · subst h2
      rw [if_pos rfl]
      exact (min_eq_left (le_of_lt h1)).symm
    · rw [if_neg h2]
  · rw [putPixel_accept w x y z c st h1]
    by_cases h2 : x + y * w = idx
    · subst h2
      rw [if_pos rfl]
      show Function.update st.depthBuffer (x + y * w) z (x + y * w) = _
      rw [Function.update_same]
      exact (min_eq_right (not_lt.mp h1)).symm
    · rw [if_neg h2]
      exact Function.update_noteq (fun he => h2 he.symm) _ _

/-- putPixel never touches the back buffer at a pixel other than the one
it writes. -/
theorem putPixel_surface_ne (w x y : ℕ) (z : ℝ) (c : color4) (st : DState)
    (p : ℕ × ℕ) (hp : p ≠ (x, y)) :
    (putPixel w x y z c st).surface p = st.surface p := by
  simp only [putPixel]
  split_ifs
  · rfl
  · exact Function.update_noteq hp _ _

/-- Unfolding one submission of a frame. -/
theorem runFrame_cons (w : ℕ) (k : Cand) (t : List Cand) (st : DState) :
    runFrame w (k :: t) st = runFrame w t (putPixel w k.x k.y k.z k.c st) := rfl

/-- The depth buffer evolves index-wise as a fold of min over the
candidates targeting that index. -/
theorem runFrame_depthBuffer (w : ℕ) (cands : List Cand) (st : DState) (idx : ℕ) :
    (runFrame w cands st).depthBuffer idx =
      cands.foldl (fun d k => if k.x + k.y * w = idx then min d k.z else d)
        (st.depthBuffer idx) := by
  induction cands generalizing st with
  | nil => rfl
  | cons k t ih =>
      rw [runFrame_cons, ih, List.foldl_cons, putPixel_depthBuffer]

/-- The min-fold never goes above its initial value. -/
theorem depthFold_le_init (w idx : ℕ) (cands : List Cand) (d0 : ℝ) :
    cands.foldl (fun d k => if k.x + k.y * w = idx then min d k.z else d) d0 ≤ d0 := by
  induction cands generalizing d0 with
  | nil => exact le_refl d0
  | cons k t ih =>
      rw [List.foldl_cons]
      refine le_trans (ih _) ?_
      split_ifs
      · exact min_le_left _ _
      · exact le_refl _

/-- The min-fold is bounded by the depth of every candidate targeting
the index. -/
theorem depthFold_le_mem (w idx : ℕ) (cands : List Cand) :
    ∀ (d0 : ℝ) (k : Cand), k ∈ cands → k.x + k.y * w = idx →
      cands.foldl (fun d k2 => if k2.x + k2.y * w = idx then min d k2.z else d) d0 ≤ k.z := by
  induction cands with
  | nil =>
      intro d0 k hk _
      cases hk
  | cons h t ih =>
      intro d0 k hk hik
      rw [List.foldl_cons]
      rcases List.mem_cons.mp hk with rfl | hmem
      · rw [if_pos hik]
        exact le_trans (depthFold_le_init w idx t _) (min_le_right _ _)
      · exact ih _ k hmem hik

/-- The min-fold either keeps its initial value or lands exactly on the
depth of some candidate targeting the index. -/
theorem depthFold_cases (w idx : ℕ) (cands : List Cand) (d0 : ℝ) :
    cands.foldl (fun d k => if k.x + k.y * w = idx then min d k.z else d) d0 = d0 ∨
    ∃ k ∈ cands, k.x + k.y * w = idx ∧
      cands.foldl (fun d k => if k.x + k.y * w = idx then min d k.z else d) d0 = k.z := by
  induction cands generalizing d0 with
  | nil => exact Or.inl rfl
  | cons h t ih =>
      rw [List.foldl_cons]
      by_cases hh : h.x + h.y * w = idx
      · rw [if_pos hh]
        rcases ih (min d0 h.z) with heq | ⟨k, hk, hik, heq⟩
        · rcases min_cases d0 h.z with ⟨hm, _⟩ | ⟨hm, _⟩
          · exact Or.inl (by rw [heq, hm])
          · exact Or.inr ⟨h, List.mem_cons_self _ _, hh, by rw [heq, hm]⟩
        · exact Or.inr ⟨k, List.mem_cons_of_mem _ hk, hik, heq⟩
      · rw [if_neg hh]
        rcases ih d0 with heq | ⟨k, hk, hik, heq⟩
        · exact Or.inl heq
        · exact Or.inr ⟨k, List.mem_cons_of_mem _ hk, hik, heq⟩

/-- Once a candidate's depth and color are stored and every remaining
candidate for the same index is strictly farther, the stored sample
survives the rest of the frame. -/
theorem runFrame_locked (w : ℕ) (m : Cand) (t : List Cand) :
    ∀ st : DState,
      st.depthBuffer (m.x + m.y * w) = m.z →
      st.surface (m.x, m.y) = m.c →
      (∀ k ∈ t, k.x + k.y * w = m.x + m.y * w → k ≠ m → m.z < k.z) →
      (runFrame w t st).surface (m.x, m.y) = m.c ∧
      (runFrame w t st).depthBuffer (m.x + m.y * w) = m.z := by
  induction t with
  | nil =>
      intro st hdb hsf _
      exact ⟨hsf, hdb⟩
  | cons k t2 ih =>
      intro st hdb hsf hmin
      rw [runFrame_cons]
      by_cases hki : k.x + k.y * w = m.x + m.y * w
      · by_cases hkm : k = m
        · subst hkm
          have hacc : ¬ st.depthBuffer (k.x + k.y * w) < k.z := by
            rw [hdb]
            exact lt_irrefl _
          refine ih (putPixel w k.x k.y k.z k.c st) ?_ ?_ ?_
          · rw [putPixel_depthBuffer, if_pos rfl, hdb, min_self]
          · rw [putPixel_accept _ _ _ _ _ _ hacc]
            exact Function.update_same _ _ _
          · exact fun k2 hk2 => hmin k2 (List.mem_cons_of_mem _ hk2)
        · have hlt : m.z < k.z := hmin k (List.mem_cons_self _ _) hki hkm
          have hrej : st.depthBuffer (k.x + k.y * w) < k.z := by
            rw [hki, hdb]
            exact hlt
          rw [putPixel_reject _ _ _ _ _ _ hrej]
          exact ih st hdb hsf (fun k2 hk2 => hmin k2 (List.mem_cons_of_mem _ hk2))
      · refine ih (putPixel w k.x k.y k.z k.c st) ?_ ?_ ?_
        · rw [putPixel_depthBuffer, if_neg hki, hdb]
        · have hp : ((m.x, m.y) : ℕ × ℕ) ≠ (k.x, k.y) := by
            intro he
            have hx : m.x = k.x := congrArg Prod.fst he
            have hy : m.y = k.y := congrArg Prod.snd he
            exact hki (by rw [hx, hy])
          rw [putPixel_surface_ne _ _ _ _ _ _ _ hp, hsf]
        · exact fun k2 hk2 => hmin k2 (List.mem_cons_of_mem _ hk2)

/-- If a candidate is the strict minimum among all candidates targeting
its index and is at least as near as the incoming depth there, its
color and depth are the final ones, independently of the submission
order of the others. -/
theorem runFrame_unique (w : ℕ) (m : Cand) (cands : List Cand) :
    ∀ st : DState,
      m ∈ cands → m.z ≤ st.depthBuffer (m.x + m.y * w) →
      (∀ k ∈ cands, k.x + k.y * w = m.x + m.y * w → k ≠ m → m.z < k.z) →
      (runFrame w cands st).surface (m.x, m.y) = m.c ∧
      (runFrame w cands st).depthBuffer (m.x + m.y * w) = m.z := by
  induction cands with
  | nil =>
      intro st hm _ _
      simp at hm
  | cons k t ih =>
      intro st hm hinit hmin
      rw [runFrame_cons]
      by_cases hkm : k = m
      · subst hkm
        have hacc : ¬ st.depthBuffer (k.x + k.y * w) < k.z := not_lt.mpr hinit
        refine runFrame_locked w k t _ ?_ ?_ ?_
        · rw [putPixel_depthBuffer, if_pos rfl, min_eq_right hinit]
        · rw [putPixel_accept _ _ _ _ _ _ hacc]
          exact Function.update_same _ _ _
        · exact fun k2 hk2 => hmin k2 (List.mem_cons_of_mem _ hk2)
      · have hm2 : m ∈ t := (List.mem_cons.mp hm).resolve_left (fun he => hkm he.symm)
        refine ih (putPixel w k.x k.y k.z k.c st) hm2 ?_ ?_
        · rw [putPixel_depthBuffer]
          split_ifs with hki
          · exact le_min hinit (le_of_lt (hmin k (List.mem_cons_self _ _) hki hkm))
          · exact hinit
        · exact fun k2 hk2 => hmin k2 (List.mem_cons_of_mem _ hk2)

/-- C1 (amended): putPixel discards a candidate exactly when the stored
depth at idx = x + y*width is strictly less than its z, and otherwise
stores z and forwards the color.  Over a frame started by clear, the
final depth at every index that received a candidate of depth at most
the clear sentinel equals the minimum candidate depth there.  The final
color at a pixel is independent of draw order whenever the minimal
depth at that pixel is attained by a unique candidate; with an
equal-depth tie the last submission wins (see the counterexample), so
the original unconditional order-independence statement is weakened to
the unique-minimum case. -/
theorem claim_c1_amended (w : ℕ) :
    (∀ (x y : ℕ) (z : ℝ) (c : color4) (st : DState),
      (st.depthBuffer (x + y * w) < z → putPixel w x y z c st = st) ∧
      (¬ st.depthBuffer (x + y * w) < z →
        putPixel w x y z c st =
          { depthBuffer := Function.update st.depthBuffer (x + y * w) z,
            surface := Function.update st.surface (x, y) c })) ∧
    (∀ (cands : List Cand) (bg : color4) (st0 : DState) (idx : ℕ),
      (∃ k ∈ cands, k.x + k.y * w = idx) →
      (∀ k ∈ cands, k.x + k.y * w = idx → k.z ≤ FLT_MAX) →
      ∃ k ∈ cands, k.x + k.y * w = idx ∧
        (runFrame w cands (clear bg st0)).depthBuffer idx = k.z ∧
        ∀ k2 ∈ cands, k2.x + k2.y * w = idx → k.z ≤ k2.z) ∧
    (∀ (cands : List Cand) (bg : color4) (st0 : DState) (m : Cand),
      m ∈ cands → m.z ≤ FLT_MAX →
      (∀ k ∈ cands, k.x + k.y * w = m.x + m.y * w → k ≠ m → m.z < k.z) →
      (runFrame w cands (clear bg st0)).surface (m.x, m.y) = m.c ∧
      ∀ cands2, List.Perm cands2 cands →
        (runFrame w cands2 (clear bg st0)).surface (m.x, m.y) =
          (runFrame w cands (clear bg st0)).surface (m.x, m.y)) := by
  refine ⟨?_, ?_, ?_⟩
  · intro x y z c st
    exact ⟨putPixel_reject w x y z c st, putPixel_accept w x y z c st⟩
  · rintro cands bg st0 idx ⟨k0, hk0, hik0⟩ hle
    rw [runFrame_depthBuffer]
    have hinit : (clear bg st0).depthBuffer idx = FLT_MAX := rfl
    rw [hinit]
    rcases depthFold_cases w idx cands FLT_MAX with heq | ⟨k, hk, hik, heq⟩
    · have hlek0 := depthFold_le_mem w idx cands FLT_MAX k0 hk0 hik0
      have hk0eq : cands.foldl (fun d k => if k.x + k.y * w = idx then min d k.z else d)
          FLT_MAX = k0.z :=
        le_antisymm hlek0 (by rw [heq]; exact hle k0 hk0 hik0)
      exact ⟨k0, hk0, hik0, hk0eq,
        fun k2 hk2 hik2 => hk0eq ▸ depthFold_le_mem w idx cands FLT_MAX k2 hk2 hik2⟩
    · exact ⟨k, hk, hik, heq,
        fun k2 hk2 hik2 => heq ▸ depthFold_le_mem w idx cands FLT_MAX k2 hk2 hik2⟩
  · intro cands bg st0 m hm hle hmin
    have hinit : m.z ≤ (clear bg st0).depthBuffer (m.x + m.y * w) := hle
    have base := runFrame_unique w m cands (clear bg st0) hm hinit hmin
    refine ⟨base.1, ?_⟩
    intro cands2 hperm
    have base2 := runFrame_unique w m cands2 (clear bg st0)
      (hperm.mem_iff.mpr hm) hinit (fun k hk => hmin k (hperm.subset hk))
    rw [base.1, base2.1]

/-- C1 witness: one concrete candidate at depth 1 on a cleared 2-pixel
frame ends up as the final color at its pixel. -/
theorem claim_c1_amended_witness :
    (runFrame 2 [⟨0, 0, 1, ⟨255, 0, 0, 255⟩⟩] (clear ⟨0, 0, 0, 255⟩ dstate0)).surface (0, 0) =
      ⟨255, 0, 0, 255⟩ :=
  ((claim_c1_amended 2).2.2 [⟨0, 0, 1, ⟨255, 0, 0, 255⟩⟩] ⟨0, 0, 0, 255⟩ dstate0
    ⟨0, 0, 1, ⟨255, 0, 0, 255⟩⟩ (List.mem_singleton.mpr rfl)
    (by norm_num [FLT_MAX])
    (by
      intro k hk hik hne
      rw [List.mem_singleton.mp hk] at hne
      exact absurd rfl hne)).1

/-- C1 counterexample: two candidates for the same pixel with the same
depth but different colors; swapping the submission order changes the
final color, so the claimed unconditional draw-order independence of
the final color is false. -/
theorem claim_c1_counterexample :
    (runFrame 2 [⟨0, 0, 1, ⟨255, 0, 0, 255⟩⟩, ⟨0, 0, 1, ⟨0, 0, 255, 255⟩⟩]
        (clear ⟨0, 0, 0, 255⟩ dstate0)).surface (0, 0) ≠
      (runFrame 2 [⟨0, 0, 1, ⟨0, 0, 255, 255⟩⟩, ⟨0, 0, 1, ⟨255, 0, 0, 255⟩⟩]
        (clear ⟨0, 0, 0, 255⟩ dstate0)).surface (0, 0) := by
  have hM : ¬ (FLT_MAX < (1 : ℝ)) := by norm_num [FLT_MAX]
  have h1 : ¬ ((1 : ℝ) < 1) := lt_irrefl 1
  norm_num [runFrame, List.foldl, putPixel, clear, Function.update_apply, hM, h1, FLT_MAX]

/-- C8: clear resets every depth-buffer entry to the float-max sentinel
(the code's representation of plus infinity) and fills the back buffer
with the background color; rendering an empty mesh list afterwards
changes nothing. -/
theorem claim_c8 (wd ht : ℕ) (bg : color4) (st : DState) (camera : Camera) :
    (∀ i, (clear bg st).depthBuffer i = FLT_MAX) ∧
    (∀ p, (clear bg st).surface p = bg) ∧
    render wd ht camera [] (clear bg st) = clear bg st :=
  ⟨fun _ => rfl, fun _ => rfl, rfl⟩

/-- C9: a candidate whose depth equals the stored depth passes the
strict depth test: the stored depth is rewritten (with the same value)
and the color replaces the previously drawn one. -/
theorem claim_c9 (wd x y : ℕ) (z : ℝ) (c : color4) (st : DState)
    (h : st.depthBuffer (x + y * wd) = z) :
    putPixel wd x y z c st =
      { depthBuffer := Function.update st.depthBuffer (x + y * wd) z,
        surface := Function.update st.surface (x, y) c } ∧
    (putPixel wd x y z c st).depthBuffer (x + y * wd) = z ∧
    (putPixel wd x y z c st).surface (x, y) = c := by
  have hacc : ¬ st.depthBuffer (x + y * wd) < z := by
    rw [h]
    exact lt_irrefl z
  have hou := putPixel_accept wd x y z c st hacc
  refine ⟨hou, ?_, ?_⟩
  · rw [hou]
    exact Function.update_same _ _ _
  · rw [hou]
    exact Function.update_same _ _ _

/-- C9 witness: a concrete equal-depth submission overwrites the color.
-/
theorem claim_c9_witness :
    (putPixel 1 0 0 0 ⟨7, 7, 7, 7⟩ dstate0).surface (0, 0) = ⟨7, 7, 7, 7⟩ :=
  (claim_c9 1 0 0 0 ⟨7, 7, 7, 7⟩ dstate0 rfl).2.2

/-- C10: for a point accepted by drawPoint's bounds check, the
truncated coordinates are inside the window, hence the depth-buffer
index x + y*width is strictly below width*height, the buffer size. -/
theorem claim_c10 (wd ht : ℕ) (p : V3) (c : color4) (st : DState)
    (h1 : 0 ≤ p.x) (h2 : 0 ≤ p.y) (h3 : p.x < (wd : ℝ)) (h4 : p.y < (ht : ℝ)) :
    drawPoint wd ht p c st = putPixel wd (castU16 p.x) (castU16 p.y) p.z c st ∧
    castU16 p.x < wd ∧ castU16 p.y < ht ∧
    castU16 p.x + castU16 p.y * wd < wd * ht := by
  have hx : castU16 p.x < wd := by
    have hf : ⌊p.x⌋ < (wd : ℤ) := Int.floor_lt.mpr (by exact_mod_cast h3)
    have hf0 : (0 : ℤ) ≤ ⌊p.x⌋ := Int.floor_nonneg.mpr h1
    unfold castU16
    omega
  have hy : castU16 p.y < ht := by
    have hf : ⌊p.y⌋ < (ht : ℤ) := Int.floor_lt.mpr (by exact_mod_cast h4)
    have hf0 : (0 : ℤ) ≤ ⌊p.y⌋ := Int.floor_nonneg.mpr h2
    unfold castU16
    omega
  refine ⟨?_, hx, hy, ?_⟩
  · unfold drawPoint
    rw [if_pos ⟨h1, h2, h3, h4⟩]
  · calc castU16 p.x + castU16 p.y * wd
        < wd + castU16 p.y * wd := Nat.add_lt_add_right hx _
      _ = (castU16 p.y + 1) * wd := by ring
      _ ≤ ht * wd := Nat.mul_le_mul (by omega) (le_refl wd)
      _ = wd * ht := Nat.mul_comm _ _

/-- C10 witness: a concrete in-bounds point yields an in-range index. -/
theorem claim_c10_witness :
    castU16 ((3 : ℝ) / 2) + castU16 ((5 : ℝ) / 2) * 4 < 4 * 3 :=
  (claim_c10 4 3 ⟨3 / 2, 5 / 2, 1 / 4⟩ ⟨0, 0, 0, 0⟩ dstate0
    (by norm_num) (by norm_num) (by norm_num) (by norm_num)).2.2.2

/-- C7: the scanline fill draws only for integer x in [sx, ex); when
ex is not greater than sx it draws nothing and leaves the whole state
(depth buffer and back buffer) unchanged, signalling nothing. -/
theorem claim_c7 (wd ht : ℕ) (data : ScanLineData) (va vb vc vd : Vertex) (c : color4) :
    (∀ pr ∈ scanPixels data va vb vc vd c,
      ∃ x : ℕ,
        scanX data.currentY va.coordinates vb.coordinates ≤ x ∧
        x < scanX data.currentY vc.coordinates vd.coordinates ∧
        pr.1.x = (x : ℝ) ∧ pr.1.y = (data.currentY : ℝ)) ∧
    (scanX data.currentY vc.coordinates vd.coordinates ≤
        scanX data.currentY va.coordinates vb.coordinates →
      scanPixels data va vb vc vd c = [] ∧
      ∀ st : DState, processScanline wd ht data va vb vc vd c st = st) := by
  constructor
  · intro pr hpr
    simp only [scanPixels, List.mem_map, List.mem_range] at hpr
    obtain ⟨i, hi, heq⟩ := hpr
    subst heq
    exact ⟨scanX data.currentY va.coordinates vb.coordinates + i,
      Nat.le_add_right _ _, by omega, rfl, rfl⟩
  · intro hle
    have hz : scanX data.currentY vc.coordinates vd.coordinates -
        scanX data.currentY va.coordinates vb.coordinates = 0 :=
      Nat.sub_eq_zero_of_le hle
    have hnil : scanPixels data va vb vc vd c = [] := by
      simp only [scanPixels, hz, List.range_zero, List.map_nil]
    exact ⟨hnil, fun st => by simp only [processScanline, hnil, List.foldl_nil]⟩

/-- C7 witness: a degenerate scanline whose four edge endpoints
coincide (so ex = sx) is a silent no-op on a concrete state. -/
theorem claim_c7_witness :
    processScanline 4 3 ⟨0, 1, 0, 0, 0⟩ vtx5 vtx5 vtx5 vtx5 ⟨255, 255, 255, 255⟩ dstate0 =
      dstate0 :=
  ((claim_c7 4 3 ⟨0, 1, 0, 0, 0⟩ vtx5 vtx5 vtx5 vtx5 ⟨255, 255, 255, 255⟩).2
    (le_refl _)).2 dstate0

/-- The y values of the scanline calls of drawTriangle form the integer
range from cast(p1.y) to cast(p3.y) inclusive, in both orientation
cases. -/
theorem scanlinesVisited_eq (ndotl : ℝ) (v1 v2 v3 : Vertex) :
    scanlinesVisited ndotl v1 v2 v3 =
      (List.range (castU16 v3.coordinates.y + 1 - castU16 v1.coordinates.y)).map
        (fun i => castU16 v1.coordinates.y + i) := by
  simp only [scanlinesVisited, triScanCalls]
  by_cases hd : invSlope v1.coordinates v2.coordinates > invSlope v1.coordinates v3.coordinates
  · rw [if_pos hd, List.map_map]
    apply List.map_congr_left
    intro i _
    simp only [Function.comp]
    split_ifs <;> rfl
  · rw [if_neg hd, List.map_map]
    apply List.map_congr_left
    intro i _
    simp only [Function.comp]
    split_ifs <;> rfl

/-- C2 (amended): for Y-sorted vertices whose top Y is nonnegative, the
scanlines visited are exactly the integers from floor(v1.y) to
floor(v3.y), and their number is floor(v3.y) - floor(v1.y) + 1.  For a
negative top Y the uint16_t cast clamps the loop start at 0 instead of
floor(v1.y) (see the counterexample), so the claim holds under the
added nonnegativity hypothesis. -/
theorem claim_c2_amended (ndotl : ℝ) (v1 v2 v3 : Vertex)
    (hs1 : v1.coordinates.y ≤ v2.coordinates.y)
    (hs2 : v2.coordinates.y ≤ v3.coordinates.y)
    (h0 : 0 ≤ v1.coordinates.y) :
    List.map (fun n : ℕ => (n : ℤ)) (scanlinesVisited ndotl v1 v2 v3) =
      List.map (fun i : ℕ => (⌊v1.coordinates.y⌋ + i : ℤ))
        (List.range (⌊v3.coordinates.y⌋ - ⌊v1.coordinates.y⌋ + 1).toNat) ∧
    (scanlinesVisited ndotl v1 v2 v3).length =
      (⌊v3.coordinates.y⌋ - ⌊v1.coordinates.y⌋ + 1).toNat := by
  have h13 : v1.coordinates.y ≤ v3.coordinates.y := le_trans hs1 hs2
  have hfm : ⌊v1.coordinates.y⌋ ≤ ⌊v3.coordinates.y⌋ := Int.floor_le_floor h13
  have hf0 : (0 : ℤ) ≤ ⌊v1.coordinates.y⌋ := Int.floor_nonneg.mpr h0
  rw [scanlinesVisited_eq]
  have hlen : castU16 v3.coordinates.y + 1 - castU16 v1.coordinates.y =
      (⌊v3.coordinates.y⌋ - ⌊v1.coordinates.y⌋ + 1).toNat := by
    unfold castU16
    omega
  constructor
  · rw [List.map_map, hlen]
    apply List.map_congr_left
    intro i _
    simp only [Function.comp, castU16]
    push_cast [Int.toNat_of_nonneg hf0]
    ring
  · rw [List.length_map, List.length_range, hlen]

/-- C2 witness: a degenerate sorted triangle at y = 0 visits exactly
one scanline, matching the floor-range count. -/
theorem claim_c2_amended_witness :
    (scanlinesVisited 1 vtx5 vtx5 vtx5).length =
      (⌊vtx5.coordinates.y⌋ - ⌊vtx5.coordinates.y⌋ + 1).toNat :=
  (claim_c2_amended 1 vtx5 vtx5 vtx5 (le_refl _) (le_refl _) (le_refl _)).2

/-- C2 counterexample: a Y-sorted triangle whose top vertex has
y = -1/2 visits only scanline 0, not the claimed floor range
{-1, 0}: the scanline count is 1 while floor(maxY) - floor(minY) + 1
is 2, and the claimed bottom scanline floor(v1.y) = -1 is never
touched. -/
theorem claim_c2_counterexample :
    (cV1.coordinates.y ≤ cV2.coordinates.y ∧ cV2.coordinates.y ≤ cV3.coordinates.y) ∧
    ⌊cV1.coordinates.y⌋ = -1 ∧
    scanlinesVisited 1 cV1 cV2 cV3 = [0] ∧
    ((scanlinesVisited 1 cV1 cV2 cV3).length : ℤ) ≠
      ⌊cV3.coordinates.y⌋ - ⌊cV1.coordinates.y⌋ + 1 ∧
    ⌊cV1.coordinates.y⌋ ∉ List.map (fun n : ℕ => (n : ℤ)) (scanlinesVisited 1 cV1 cV2 cV3) := by
  have hf1 : ⌊cV1.coordinates.y⌋ = -1 := by
    show ⌊(-(1 / 2) : ℝ)⌋ = -1
    norm_num
  have hf3 : ⌊cV3.coordinates.y⌋ = 0 := by
    show ⌊((1 : ℝ) / 2)⌋ = 0
    norm_num
  have hc1 : castU16 cV1.coordinates.y = 0 := by
    unfold castU16
    rw [hf1]
    rfl
  have hc3 : castU16 cV3.coordinates.y = 0 := by
    unfold castU16
    rw [hf3]
    rfl
  have hvis : scanlinesVisited 1 cV1 cV2 cV3 = [0] := by
    rw [scanlinesVisited_eq, hc1, hc3]
    rfl
  refine ⟨⟨by show -(1 / 2 : ℝ) ≤ 1 / 2; norm_num, le_refl _⟩, hf1, hvis, ?_, ?_⟩
  · rw [hvis, hf1, hf3]
    norm_num
  · rw [hvis, hf1]
    decide

/-- C3: the three compare-and-swap steps leave the vertices sorted by
ascending screen-space Y, and the result is exactly the stable
insertion sort of the input triple under that key (equal-Y vertices
keep their input order). -/
theorem claim_c3 (v1 v2 v3 : Vertex) :
    ((sortTri v1 v2 v3).1.coordinates.y ≤ (sortTri v1 v2 v3).2.1.coordinates.y ∧
     (sortTri v1 v2 v3).2.1.coordinates.y ≤ (sortTri v1 v2 v3).2.2.coordinates.y) ∧
    [(sortTri v1 v2 v3).1, (sortTri v1 v2 v3).2.1, (sortTri v1 v2 v3).2.2] =
      List.insertionSort (fun a b => a.coordinates.y ≤ b.coordinates.y) [v1, v2, v3] := by
  simp only [sortTri]
  split_ifs
  all_goals refine ⟨⟨by linarith, by linarith⟩, ?_⟩
  all_goals simp only [List.insertionSort, List.orderedInsert]
  all_goals split_ifs
  all_goals simp only [List.orderedInsert]
  all_goals try split_ifs
  all_goals first | rfl | (exfalso; linarith)

/-- C4: the averaged face normal and the face centroid are invariant
under all permutations of the three vertices, so the intensity computed
by drawTriangle after its Y-sort equals the intensity of the unsorted
input triangle. -/
theorem claim_c4 (v1 v2 v3 : Vertex) (lp : V3) :
    (vnFace v2 v1 v3 = vnFace v1 v2 v3 ∧ vnFace v1 v3 v2 = vnFace v1 v2 v3 ∧
     vnFace v2 v3 v1 = vnFace v1 v2 v3 ∧ vnFace v3 v1 v2 = vnFace v1 v2 v3 ∧
     vnFace v3 v2 v1 = vnFace v1 v2 v3) ∧
    (centerPoint v2 v1 v3 = centerPoint v1 v2 v3 ∧
     centerPoint v1 v3 v2 = centerPoint v1 v2 v3 ∧
     centerPoint v2 v3 v1 = centerPoint v1 v2 v3 ∧
     centerPoint v3 v1 v2 = centerPoint v1 v2 v3 ∧
     centerPoint v3 v2 v1 = centerPoint v1 v2 v3) ∧
    computeNDotL
        (centerPoint (sortTri v1 v2 v3).1 (sortTri v1 v2 v3).2.1 (sortTri v1 v2 v3).2.2)
        (vnFace (sortTri v1 v2 v3).1 (sortTri v1 v2 v3).2.1 (sortTri v1 v2 v3).2.2) lp =
      computeNDotL (centerPoint v1 v2 v3) (vnFace v1 v2 v3) lp := by
  have hn : ∀ a b c : Vertex, vnFace b a c = vnFace a b c ∧ vnFace a c b = vnFace a b c := by
    intro a b c
    constructor <;>
      (simp only [vnFace, V3.add, V3.divs, V3.mk.injEq]
       exact ⟨by ring, by ring, by ring⟩)
  have hcp : ∀ a b c : Vertex,
      centerPoint b a c = centerPoint a b c ∧ centerPoint a c b = centerPoint a b c := by
    intro a b c
    constructor <;>
      (simp only [centerPoint, V3.add, V3.divs, V3.mk.injEq]
       exact ⟨by ring, by ring, by ring⟩)
  have n21 : vnFace v2 v1 v3 = vnFace v1 v2 v3 := (hn v1 v2 v3).1
  have n132 : vnFace v1 v3 v2 = vnFace v1 v2 v3 := (hn v1 v2 v3).2
  have n231 : vnFace v2 v3 v1 = vnFace v1 v2 v3 := ((hn v2 v3 v1).2.symm).trans n21
  have n312 : vnFace v3 v1 v2 = vnFace v1 v2 v3 := ((hn v3 v1 v2).1.symm).trans n132
  have n321 : vnFace v3 v2 v1 = vnFace v1 v2 v3 := ((hn v2 v3 v1).1).trans n231
  have c21 : centerPoint v2 v1 v3 = centerPoint v1 v2 v3 := (hcp v1 v2 v3).1
  have c132 : centerPoint v1 v3 v2 = centerPoint v1 v2 v3 := (hcp v1 v2 v3).2
  have c231 : centerPoint v2 v3 v1 = centerPoint v1 v2 v3 := ((hcp v2 v3 v1).2.symm).trans c21
  have c312 : centerPoint v3 v1 v2 = centerPoint v1 v2 v3 := ((hcp v3 v1 v2).1.symm).trans c132
  have c321 : centerPoint v3 v2 v1 = centerPoint v1 v2 v3 := ((hcp v2 v3 v1).1).trans c231
  refine ⟨⟨n21, n132, n231, n312, n321⟩, ⟨c21, c132, c231, c312, c321⟩, ?_⟩
  simp only [sortTri]
  split_ifs <;> simp only [n21, n132, n231, n312, n321, c21, c132, c231, c312, c321]

/-- The dot product of two glm-normalized vectors never exceeds 1
(Cauchy-Schwarz; a zero vector normalizes to zero). -/
theorem normalize_dot_le_one (u v : V3) : (u.normalize).dot (v.normalize) ≤ 1 := by
  have hqu : 0 ≤ u.dot u := by
    simp only [V3.dot]
    nlinarith [mul_self_nonneg u.x, mul_self_nonneg u.y, mul_self_nonneg u.z]
  have hqv : 0 ≤ v.dot v := by
    simp only [V3.dot]
    nlinarith [mul_self_nonneg v.x, mul_self_nonneg v.y, mul_self_nonneg v.z]
  have hsu0 : 0 ≤ Real.sqrt (u.dot u) := Real.sqrt_nonneg _
  have hsv0 : 0 ≤ Real.sqrt (v.dot v) := Real.sqrt_nonneg _
  have hexp : (u.normalize).dot (v.normalize) =
      (u.dot v) * (1 / Real.sqrt (u.dot u) * (1 / Real.sqrt (v.dot v))) := by
    simp only [V3.normalize, V3.scale, V3.dot]
    ring
  rw [hexp]
  rcases eq_or_lt_of_le hsu0 with h0 | hpos
  · rw [← h0]
    simp
  · rcases eq_or_lt_of_le hsv0 with h0v | hposv
    · rw [← h0v]
      simp
    · have hcs : (u.dot v) ^ 2 ≤ (u.dot u) * (v.dot v) := by
        simp only [V3.dot]
        nlinarith [sq_nonneg (u.x * v.y - u.y * v.x), sq_nonneg (u.x * v.z - u.z * v.x),
          sq_nonneg (u.y * v.z - u.z * v.y)]
      have hle : u.dot v ≤ Real.sqrt (u.dot u) * Real.sqrt (v.dot v) := by
        calc u.dot v ≤ |u.dot v| := le_abs_self _
          _ = Real.sqrt ((u.dot v) ^ 2) := (Real.sqrt_sq_eq_abs _).symm
          _ ≤ Real.sqrt ((u.dot u) * (v.dot v)) := Real.sqrt_le_sqrt hcs
          _ = Real.sqrt (u.dot u) * Real.sqrt (v.dot v) := Real.sqrt_mul hqu _
      calc (u.dot v) * (1 / Real.sqrt (u.dot u) * (1 / Real.sqrt (v.dot v)))
          = (u.dot v) / (Real.sqrt (u.dot u) * Real.sqrt (v.dot v)) := by ring
        _ ≤ 1 := (div_le_one (mul_pos hpos hposv)).mpr hle

/-- C5: computeNDotL equals max(0, dot of the normalized normal and
normalized light direction), lies in [0,1], and is exactly 0 when the
normalized normal is the negation of the normalized light direction
(pointing directly away from the light). -/
theorem claim_c5 (vertex normal lightPosition : V3) :
    computeNDotL vertex normal lightPosition =
      max 0 ((V3.normalize normal).dot (V3.normalize (lightPosition.sub vertex))) ∧
    0 ≤ computeNDotL vertex normal lightPosition ∧
    computeNDotL vertex normal lightPosition ≤ 1 ∧
    (V3.normalize normal = V3.neg (V3.normalize (lightPosition.sub vertex)) →
      computeNDotL vertex normal lightPosition = 0) := by
  refine ⟨rfl, le_max_left _ _, ?_, ?_⟩
  · exact max_le zero_le_one
      (normalize_dot_le_one normal (lightPosition.sub vertex))
  · intro h
    simp only [computeNDotL]
    rw [h]
    have hneg : (V3.neg (V3.normalize (lightPosition.sub vertex))).dot
        (V3.normalize (lightPosition.sub vertex)) =
        -((V3.normalize (lightPosition.sub vertex)).dot
          (V3.normalize (lightPosition.sub vertex))) := by
      simp only [V3.neg, V3.dot]
      ring
    rw [hneg]
    have hge : 0 ≤ (V3.normalize (lightPosition.sub vertex)).dot
        (V3.normalize (lightPosition.sub vertex)) := by
      simp only [V3.dot]
      nlinarith [mul_self_nonneg (V3.normalize (lightPosition.sub vertex)).x,
        mul_self_nonneg (V3.normalize (lightPosition.sub vertex)).y,
        mul_self_nonneg (V3.normalize (lightPosition.sub vertex)).z]
    exact max_eq_left (neg_nonpos.mpr hge)

/-- C5 witness: a unit normal pointing directly away from the light
yields intensity exactly 0. -/
theorem claim_c5_witness :
    computeNDotL ⟨0, 0, 0⟩ ⟨0, 0, -1⟩ ⟨0, 0, 1⟩ = 0 :=
  (claim_c5 ⟨0, 0, 0⟩ ⟨0, 0, -1⟩ ⟨0, 0, 1⟩).2.2.2 (by
    simp only [V3.normalize, V3.sub, V3.dot, V3.scale, V3.neg, V3.mk.injEq]
    norm_num [Real.sqrt_one])

/-- Every denominator evaluated by one scanline call is nonzero: the
two gradient divisions are guarded by the equal-Y test and the inner
division by ex - sx only happens for x strictly between sx and ex. -/
theorem scanDenoms_ne_zero (data : ScanLineData) (va vb vc vd : Vertex) :
    ∀ d ∈ scanDenoms data va vb vc vd, d ≠ 0 := by
  intro d hd
  simp only [scanDenoms, List.mem_append] at hd
  rcases hd with (h1 | h2) | h3
  · by_cases hab : va.coordinates.y ≠ vb.coordinates.y
    · rw [if_pos hab, List.mem_singleton] at h1
      rw [h1]
      exact sub_ne_zero_of_ne (Ne.symm hab)
    · rw [if_neg hab] at h1
      cases h1
  · by_cases hcd : vc.coordinates.y ≠ vd.coordinates.y
    · rw [if_pos hcd, List.mem_singleton] at h2
      rw [h2]
      exact sub_ne_zero_of_ne (Ne.symm hcd)
    · rw [if_neg hcd] at h2
      cases h2
  · simp only [List.mem_map, List.mem_range] at h3
    obtain ⟨i, hi, heq⟩ := h3
    rw [← heq]
    exact Nat.cast_ne_zero.mpr (by omega)

/-- Every denominator of the slope, averaging and gradient divisions of
one drawTriangle call is nonzero. -/
theorem triDenoms_ne_zero (v1 v2 v3 : Vertex) : ∀ d ∈ triDenoms v1 v2 v3, d ≠ 0 := by
  intro d hd
  simp only [triDenoms, List.mem_append] at hd
  rcases hd with ((h33 | hA) | hB) | hC
  · simp only [List.mem_cons, List.not_mem_nil, or_false] at h33
    rcases h33 with h | h <;> (rw [h]; norm_num)
  · simp only [invSlopeDenoms] at hA
    by_cases hg : (sortTri v1 v2 v3).2.1.coordinates.y - (sortTri v1 v2 v3).1.coordinates.y > 0
    · rw [if_pos hg, List.mem_singleton] at hA
      rw [hA]
      exact ne_of_gt hg
    · rw [if_neg hg] at hA
      cases hA
  · simp only [invSlopeDenoms] at hB
    by_cases hg : (sortTri v1 v2 v3).2.2.coordinates.y - (sortTri v1 v2 v3).1.coordinates.y > 0
    · rw [if_pos hg, List.mem_singleton] at hB
      rw [hB]
      exact ne_of_gt hg
    · rw [if_neg hg] at hB
      cases hB
  · simp only [List.mem_flatten, List.mem_map] at hC
    obtain ⟨l, ⟨call, _, hcall⟩, hdl⟩ := hC
    rw [← hcall] at hdl
    exact scanDenoms_ne_zero call.1 call.2.1 call.2.2.1 call.2.2.2.1 call.2.2.2.2 d hdl

/-- C6 (amended): the inverse slopes fall back to 0 when the Y delta is
not strictly positive, the scanline gradients fall back to 1 when the
edge's Y values are equal, and none of the slope, averaging or gradient
divisions of fillTriangle and the scanline fill ever divides by zero.
The blanket no-division-by-zero statement is restricted to those
divisions: computeNDotL's normalize divides by a zero square root for a
degenerate averaged normal (see the counterexample). -/
theorem claim_c6_amended :
    (∀ p q : V3, ¬ q.y - p.y > 0 → invSlope p q = 0) ∧
    (∀ (y : ℕ) (pa pb : V3), pa.y = pb.y → scanGradient y pa pb = 1) ∧
    (∀ v1 v2 v3 : Vertex, ∀ d ∈ triDenoms v1 v2 v3, d ≠ 0) ∧
    (∀ (data : ScanLineData) (va vb vc vd : Vertex),
      ∀ d ∈ scanDenoms data va vb vc vd, d ≠ 0) := by
  refine ⟨?_, ?_, triDenoms_ne_zero, scanDenoms_ne_zero⟩
  · intro p q h
    simp only [invSlope, if_neg h]
  · intro y pa pb h
    simp only [scanGradient, if_neg (not_not_intro h)]

/-- C6 witness: concrete fallbacks (a horizontal edge slope, an equal-Y
gradient) and a concrete nonzero denominator from a drawTriangle call.
-/
theorem claim_c6_amended_witness :
    invSlope ⟨0, 5, 0⟩ ⟨3, 5, 0⟩ = 0 ∧
    scanGradient 2 ⟨0, 4, 1⟩ ⟨6, 4, 1⟩ = 1 ∧
    (3 : ℝ) ≠ 0 := by
  refine ⟨claim_c6_amended.1 _ _ (by norm_num), claim_c6_amended.2.1 2 _ _ rfl, ?_⟩
  refine claim_c6_amended.2.2.1 nV1 nV2 nV3 3 ?_
  simp only [triDenoms, List.cons_append]
  exact List.mem_cons_self _ _

/-- C6 counterexample: for a triangle whose vertex normals average to
the zero vector, drawTriangle's computeNDotL call evaluates
glm::inversesqrt with a zero radicand, i.e. the division 1/sqrt(0):
zero occurs among the denominators evaluated during fillTriangle, so
the claim that no division by zero is ever evaluated there is false. -/
theorem claim_c6_counterexample : (0 : ℝ) ∈ triAllDenoms nV1 nV2 nV3 := by
  have hsort : sortTri nV1 nV2 nV3 = (nV1, nV2, nV3) := by
    simp only [sortTri, nV1, nV2, nV3]
    norm_num
  have hvn : vnFace nV1 nV2 nV3 = ⟨0, 0, 0⟩ := by
    simp only [vnFace, nV1, nV2, nV3, V3.add, V3.divs, V3.mk.injEq]
    norm_num
  have hdot : (V3.mk 0 0 0).dot (V3.mk 0 0 0) = 0 := by
    simp [V3.dot]
  simp only [triAllDenoms, hsort, computeNDotLDenoms, hvn, hdot, Real.sqrt_zero,
    List.cons_append]
  exact List.mem_cons_self _ _

end
